import Mathlib

/-!
# Shape-level verification of `models/bottleneck.py`

This file shallowly embeds the registration model of the repository
(`Bottleneck`, `Unet2`, `ConvBlock` in `models/bottleneck.py`) at the level of
tensor shapes, and a value-level parametric embedding of the `Bottleneck`
orchestration, and proves or refutes the specification claims about it.

Conventions of the embedding:
* A 4-d activation tensor `(batch, channel, width, height)` is represented by
  its `Shape`.  All the operations the model uses (`Conv2d` with kernel 3,
  stride 1, padding 1; `MaxPool2d`; `Upsample(scale_factor, 'nearest')`;
  `torch.cat` on `dim=1`) have exact, well-known shape semantics which are
  reproduced here, including their failure conditions.
* Python exceptions (`AssertionError`, `ValueError`, `IndexError`,
  `ZeroDivisionError` and the `RuntimeError`s raised by torch on shape
  mismatches) are modelled by `Except PyError`.
* The in-place mutation of the history list by `list.pop()` during decode is
  modelled by explicit state passing: `decode` returns the output together
  with the remaining (mutated) history list.
-/

set_option autoImplicit false

namespace RnnRegistration

/-- The kinds of Python exceptions the embedded code can raise. -/
inductive PyError where
  | assertion     -- `assert` failure (AssertionError)
  | value         -- `raise ValueError(...)`
  | index         -- IndexError (list indexing / `list.pop()` on empty)
  | zeroDivision  -- ZeroDivisionError
  | runtime       -- RuntimeError raised by torch shape checks
  deriving DecidableEq, Repr

/-- Shape of a 4-d activation tensor `(batch, channel, width, height)`. -/
structure Shape where
  n : Nat
  c : Nat
  w : Nat
  h : Nat
  deriving DecidableEq, Repr

/-- Python `list.pop()`: removes and returns the last element;
`IndexError` (here `none`) on an empty list. -/
def listPop {α : Type} (l : List α) : Option (α × List α) :=
  match l.reverse with
  | [] => none
  | a :: rest => some (a, rest.reverse)

/-- `ConvBlock(ndims, in_channels, out_channels)`: a `Conv2d(in, out, 3, 1, 1)`
followed by `LeakyReLU(0.2)`.  Only the channel data is needed at shape
level (the activation does not change shapes). -/
structure ConvBlock where
  inC : Nat
  outC : Nat
  deriving DecidableEq, Repr

/-- Shape semantics of `ConvBlock.forward`: `Conv2d(kernel 3, stride 1,
padding 1)` preserves spatial dims and requires the padded input to be at
least as large as the kernel (`w + 2 ≥ 3`, i.e. `w ≥ 1`) and the channel
count to match; the LeakyReLU is shape-neutral. -/
def ConvBlock.apply (k : ConvBlock) (x : Shape) : Except PyError Shape :=
  if x.c = k.inC ∧ 1 ≤ x.w ∧ 1 ≤ x.h then
    .ok ⟨x.n, k.outC, x.w, x.h⟩
  else
    .error .runtime

/-- Apply a list of `ConvBlock`s in order (`for conv in convs: x = conv(x)`). -/
def applyConvs (ks : List ConvBlock) (x : Shape) : Except PyError Shape :=
  match ks with
  | [] => .ok x
  | k :: rest =>
    match k.apply x with
    | .error e => .error e
    | .ok x' => applyConvs rest x'

/-- Shape semantics of `nn.MaxPool2d(f)` (kernel `f`, stride `f`, no padding,
floor mode): output spatial size `⌊w / f⌋`; fails when the kernel is invalid
or larger than the input (torch raises on empty output). -/
def poolApply (f : Nat) (x : Shape) : Except PyError Shape :=
  if 1 ≤ f ∧ f ≤ x.w ∧ f ≤ x.h then
    .ok ⟨x.n, x.c, x.w / f, x.h / f⟩
  else
    .error .runtime

/-- Shape semantics of `nn.Upsample(scale_factor=f, mode='nearest')`. -/
def upsampleApply (f : Nat) (x : Shape) : Shape :=
  ⟨x.n, x.c, x.w * f, x.h * f⟩

/-- Shape semantics of `torch.cat([x, y], dim=1)`: all dims except the
channel dim must agree. -/
def catChannels (x y : Shape) : Except PyError Shape :=
  if x.n = y.n ∧ x.w = y.w ∧ x.h = y.h then
    .ok ⟨x.n, x.c + y.c, x.w, x.h⟩
  else
    .error .runtime

/-- The `nb_features` argument of `Unet2.__init__`: Python lets it be `None`,
a pair of lists, or an integer. -/
inductive NbFeatures where
  | noneArg
  | listsArg (enc dec : List Nat)
  | intArg (k : Nat)
  deriving DecidableEq, Repr

/-- `true` exactly when Python's `isinstance(nb_features, int)` holds. -/
def NbFeatures.isInt : NbFeatures → Bool
  | .intArg _ => true
  | _ => false

/-- The `max_pool` argument of `Unet2.__init__`: a scalar or a per-level list. -/
inductive MaxPoolArg where
  | intArg (m : Nat)
  | listArg (l : List Nat)
  deriving DecidableEq, Repr

/-- The fields of a constructed `Unet2` module that matter at shape level. -/
structure Unet2 where
  ndims : Nat
  half_res : Bool
  nb_levels : Nat
  pooling : List Nat            -- per-level pooling factors
  upsampling : List Nat         -- per-level upsampling factors
  encoder : List (List ConvBlock)
  decoder : List (List ConvBlock)
  remaining : List ConvBlock
  final_nf : Nat
  deriving DecidableEq, Repr

/-- The inner loop `for conv in range(nb_conv_per_level): nf = nfList[level *
nb_conv_per_level + conv]; convs.append(ConvBlock(ndims, prev_nf, nf));
prev_nf = nf`, reading `count` entries of `nfList` starting at `start`.
Returns the conv blocks and the updated `prev_nf`; `none` on `IndexError`. -/
def buildConvs (nfList : List Nat) (start count prev : Nat) :
    Option (List ConvBlock × Nat) :=
  match count with
  | 0 => some ([], prev)
  | k + 1 =>
    match nfList[start]? with
    | none => none
    | some nf =>
      match buildConvs nfList (start + 1) k nf with
      | none => none
      | some (rest, p) => some (⟨prev, nf⟩ :: rest, p)

/-- The encoder loop `for level in range(self.nb_levels - 1)`: builds the
per-level conv lists, the list of per-level output widths appended to
`encoder_nfs`, and the final `prev_nf`. -/
def buildLevels (nfList : List Nat) (ncpl : Nat) :
    Nat → Nat → Nat → Option (List (List ConvBlock) × List Nat × Nat)
  | _, 0, prev => some ([], [], prev)
  | level, k + 1, prev =>
    match buildConvs nfList (level * ncpl) ncpl prev with
    | none => none
    | some (convs, p) =>
      match buildLevels nfList ncpl (level + 1) k p with
      | none => none
      | some (rest, nfs, pend) => some (convs :: rest, p :: nfs, pend)

/-- The decoder loop `for level in range(self.nb_levels - 1)`: like the
encoder loop but after each level's convs, when
`not half_res or level < nb_levels - 2`, the skip-connection width
`encoder_nfs[level]` (the flipped list) is added to `prev_nf`. -/
def buildDecoderLevels (nfList : List Nat) (ncpl : Nat) (encoderNfs : List Nat)
    (half_res : Bool) (nbLevels : Nat) :
    Nat → Nat → Nat → Option (List (List ConvBlock) × Nat)
  | _, 0, prev => some ([], prev)
  | level, k + 1, prev =>
    match buildConvs nfList (level * ncpl) ncpl prev with
    | none => none
    | some (convs, p) =>
      let p' : Option Nat :=
        if ¬half_res ∨ level < nbLevels - 2 then
          match encoderNfs[level]? with
          | none => none
          | some e => some (p + e)
        else some p
      match p' with
      | none => none
      | some p'' =>
        match buildDecoderLevels nfList ncpl encoderNfs half_res nbLevels
            (level + 1) k p'' with
        | none => none
        | some (rest, pend) => some (convs :: rest, pend)

/-- `for num, nf in enumerate(final_convs): remaining.append(ConvBlock(ndims,
prev_nf, nf)); prev_nf = nf` — plain iteration, cannot fail. -/
def chainConvs (nfs : List Nat) (prev : Nat) : List ConvBlock × Nat :=
  match nfs with
  | [] => ([], prev)
  | nf :: rest =>
    let (cs, p) := chainConvs rest nf
    (⟨prev, nf⟩ :: cs, p)

/-- `np.repeat(l, n)`: each element repeated `n` times in place. -/
def npRepeat (l : List Nat) (n : Nat) : List Nat :=
  (l.map (List.replicate n)).flatten

/-- `Unet2.__init__`.  Follows the source line by line:
the `ndims` assertion, the `nb_features` default, the integer/`nb_levels`
branch with its two `ValueError`s, the split of the decoder list into
level convs and full-resolution `final_convs`, `nb_levels`, the pooling /
upsampling caches, and the encoder / decoder / remaining conv construction
with the `prev_nf` channel bookkeeping. -/
def Unet2.init (inshape : List Nat) (infeats : Nat) (nb_features : NbFeatures)
    (nb_levels : Option Nat) (max_pool : MaxPoolArg) (feat_mult : Nat)
    (nb_conv_per_level : Nat) (half_res : Bool) : Except PyError Unet2 :=
  let ndims := inshape.length
  if ndims ∈ [1, 2, 3] then
    -- default encoder and decoder layer features if nothing provided
    let nbf : NbFeatures :=
      match nb_features with
      | .noneArg => .listsArg [16, 32, 32, 32] [32, 32, 32, 32, 32, 16, 16]
      | other => other
    -- build feature list automatically
    let resolved : Except PyError (List Nat × List Nat) :=
      match nbf with
      | .intArg k =>
        match nb_levels with
        | none => .error .value  -- 'must provide unet nb_levels if nb_features is an integer'
        | some L =>
          let feats := (List.range L).map (fun i => k * feat_mult ^ i)
          .ok (npRepeat feats.dropLast nb_conv_per_level,
               npRepeat feats.reverse nb_conv_per_level)
      | .listsArg e d =>
        match nb_levels with
        | some _ => .error .value  -- 'cannot use nb_levels if nb_features is not an integer'
        | none => .ok (e, d)
      | .noneArg => .error .value  -- unreachable: defaults substituted above
    match resolved with
    | .error e => .error e
    | .ok (enc_nf, dec_nf) =>
      let nb_dec_convs := enc_nf.length
      let final_convs := dec_nf.drop nb_dec_convs
      let dec_nf' := dec_nf.take nb_dec_convs
      if nb_conv_per_level = 0 then .error .zeroDivision
      else
        let nbLevels := nb_dec_convs / nb_conv_per_level + 1
        let mp : List Nat :=
          match max_pool with
          | .intArg m => List.replicate nbLevels m
          | .listArg l => l
        match buildLevels enc_nf nb_conv_per_level 0 (nbLevels - 1) infeats with
        | none => .error .index
        | some (encoder, nfs, prevEnc) =>
          let encoder_nfs := (infeats :: nfs).reverse
          match buildDecoderLevels dec_nf' nb_conv_per_level encoder_nfs
              half_res nbLevels 0 (nbLevels - 1) prevEnc with
          | none => .error .index
          | some (decoder, prevDec) =>
            -- remaining, final_nf = chainConvs(final_convs, prevDec)
            .ok ⟨ndims, half_res, nbLevels, mp, mp, encoder, decoder,
                 (chainConvs final_convs prevDec).1,
                 (chainConvs final_convs prevDec).2⟩
  else .error .assertion  -- assert ndims in [1, 2, 3]

/-- The encoder loop of `Unet2.forward` (`task == 'encode'`): per level apply
the convs, append the pre-pooling activation to `x_history`, and pool with
`self.pooling[level]`. -/
def encodeLevels (pooling : List Nat) :
    Nat → List (List ConvBlock) → Shape → List Shape →
    Except PyError (Shape × List Shape)
  | _, [], x, hist => .ok (x, hist)
  | level, convs :: rest, x, hist =>
    match applyConvs convs x with
    | .error e => .error e
    | .ok x' =>
      let hist' := hist ++ [x']
      match pooling[level]? with
      | none => .error .index
      | some f =>
        match poolApply f x' with
        | .error e => .error e
        | .ok x'' => encodeLevels pooling (level + 1) rest x'' hist'

/-- The decoder loop of `Unet2.forward` (`task == 'decode'`): per level apply
the convs, and unless suppressed by `half_res` on the last level, upsample
with `self.upsampling[level]`, pop the last history entry and concatenate it
on the channel dim.  The returned list is the mutated (drained) history. -/
def decodeLevels (upsampling : List Nat) (half_res : Bool) (nbLevels : Nat) :
    Nat → List (List ConvBlock) → Shape → List Shape →
    Except PyError (Shape × List Shape)
  | _, [], x, hist => .ok (x, hist)
  | level, convs :: rest, x, hist =>
    match applyConvs convs x with
    | .error e => .error e
    | .ok x' =>
      if ¬half_res ∨ level < nbLevels - 2 then
        match upsampling[level]? with
        | none => .error .index
        | some f =>
          let xu := upsampleApply f x'
          match listPop hist with
          | none => .error .index
          | some (top, hist') =>
            match catChannels xu top with
            | .error e => .error e
            | .ok xc => decodeLevels upsampling half_res nbLevels (level + 1) rest xc hist'
      else
        decodeLevels upsampling half_res nbLevels (level + 1) rest x' hist

/-- The `task == 'encode'` branch of `Unet2.forward`: `x_history = [x]`,
then the encoder loop; returns `(x, x_history)`. -/
def Unet2.encode (u : Unet2) (x : Shape) : Except PyError (Shape × List Shape) :=
  encodeLevels u.pooling 0 u.encoder x [x]

/-- The `task == 'decode'` branch of `Unet2.forward`:
`assert x_history_ is not None`, the decoder loop (which pops the history
in place), then the remaining full-resolution convs.  The second component
is the state of the caller's history list after the in-place pops. -/
def Unet2.decode (u : Unet2) (x : Shape) (x_history_ : Option (List Shape)) :
    Except PyError (Shape × List Shape) :=
  match x_history_ with
  | none => .error .assertion  -- assert x_history_ is not None, "x_history_ is None."
  | some hist =>
    match decodeLevels u.upsampling u.half_res u.nb_levels 0 u.decoder x hist with
    | .error e => .error e
    | .ok (x', hist') =>
      match applyConvs u.remaining x' with
      | .error e => .error e
      | .ok x'' => .ok (x'', hist')

/-- The value `Unet2.forward` produces: a pair for `'encode'`, a tensor (plus
the mutated history state) for `'decode'`, and Python `None` when both
branches are skipped and control falls off the end of the function. -/
inductive UnetResult where
  | encoded (x : Shape) (history : List Shape)
  | decoded (x : Shape) (historyAfter : List Shape)
  | pyNone
  deriving DecidableEq, Repr

/-- `Unet2.forward(x, task, x_history_)`: dispatches on the `task` string. -/
def Unet2.forward (u : Unet2) (x : Shape) (task : String)
    (x_history_ : Option (List Shape)) : Except PyError UnetResult :=
  if task = "encode" then
    match u.encode x with
    | .error e => .error e
    | .ok (x', hist) => .ok (.encoded x' hist)
  else if task = "decode" then
    match u.decode x x_history_ with
    | .error e => .error e
    | .ok (x', hist') => .ok (.decoded x' hist')
  else
    .ok .pyNone

/-- Shape of the 5-d sequence tensors `(frames, batch, channel, width,
height)` that `Bottleneck.forward` receives and produces. -/
structure SeqShape where
  frames : Nat
  bs : Nat
  c : Nat
  w : Nat
  h : Nat
  deriving DecidableEq, Repr

/-- The fields of a constructed `Bottleneck` module that matter at shape
level. -/
structure Bottleneck where
  image_size : List Nat
  ndims : Nat
  unet : Unet2
  input_size : Nat
  hidden_size : Nat
  deriving DecidableEq, Repr

/-- `Bottleneck.__init__(image_size)`: fixed `enc_nf`/`dec_nf`, the inner
`Unet2(inshape=image_size, infeats=2, nb_features=[enc_nf, dec_nf])`
(all other `Unet2` arguments at their defaults: `nb_levels=None`,
`max_pool=2`, `feat_mult=1`, `nb_conv_per_level=1`, `half_res=False`),
and the LSTM sizes `C*W*H` with `C = enc_nf[-1]`,
`W = image_size[0] // 2**len(enc_nf)`, `H = image_size[1] // 2**len(enc_nf)`. -/
def Bottleneck.init (image_size : List Nat) : Except PyError Bottleneck :=
  let enc_nf := [16, 32, 32, 32, 64]
  let dec_nf := [64, 32, 32, 32, 32, 16, 16, 8, 2]
  match Unet2.init image_size 2 (.listsArg enc_nf dec_nf) none
      (.intArg 2) 1 1 false with
  | .error e => .error e
  | .ok u =>
    match image_size[0]?, image_size[1]? with
    | some w0, some h0 =>
      let C := enc_nf.getLastD 0
      let W := w0 / 2 ^ enc_nf.length
      let H := h0 / 2 ^ enc_nf.length
      .ok ⟨image_size, image_size.length, u, C * W * H, C * W * H⟩
    | _, _ => .error .index

/-- Modelled from the spec: `utils.spatial_transform.SpatialTransformer` is
imported by `models/bottleneck.py` but its source is not in the repository
snapshot.  §4.4 of the spec gives its contract:
`warp(source_image, flow_field) -> warped_image`, the warped output being a
resampling of the source (hence of the source's shape), and "the operator is
shape- and dtype-agnostic across both uses". -/
def warpShape (src : Shape) (_flow : Shape) : Shape := src

/-- `Bottleneck.forward(images, labels=None)` at shape level.  `images` is a
5-d tensor `(frames, bs, c, w, h)`; every consecutive frame pair is
channel-concatenated (shape `(bs, 2c, w, h)`) and encoded — the Python loop
runs once per pair on identically-shaped inputs, so one symbolic run covers
all of them, and the loop body is skipped entirely when there are no pairs.
`torch.cat` on an empty Python list raises a `RuntimeError`.  Then the
source's `assert bs == 1` and `assert T == 39`, the LSTM (which raises if
the flattened feature size differs from its configured `input_size`), the
`view` back to `(T, bs, C, W, H)` (which needs `hidden_size = C*W*H`), the
per-step decodes, and the warps (per-pair `SpatialTransformer` calls whose
outputs take the source's shape, then `torch.cat`; `zip` silently truncates
to the shorter sequence). -/
def Bottleneck.forward (b : Bottleneck) (images : SeqShape)
    (labels : Option SeqShape) : Except PyError (List SeqShape) :=
  let T := images.frames - 1  -- number of pairs produced by the zip
  let pairShape : Shape := ⟨images.bs, images.c + images.c, images.w, images.h⟩
  if T = 0 then
    .error .runtime  -- encoder_out = torch.cat([], dim=0) raises
  else
    match b.unet.forward pairShape "encode" none with
    | .error e => .error e
    | .ok (.encoded x hist) =>
      -- T, bs, C, W, H = encoder_out.shape, where encoder_out is the dim-0
      -- concatenation of the T unsqueezed (identical) encoder outputs
      let bs := x.n
      if bs = 1 then
        if T = 39 then
          -- lstm_out, _ = self.lstm(encoder_out.view(T, bs, -1), (h_0, c_0));
          -- nn.LSTM raises unless the flattened feature size is input_size
          if x.c * x.w * x.h = b.input_size then
            -- lstm_out.view(T, bs, C, W, H) needs hidden_size = C*W*H
            if b.hidden_size = x.c * x.w * x.h then
              -- Y = [self.unet(lstm_out[i], 'decode', X_history[i]) for i in
              -- range(T)]: T structurally identical decode calls, each on a
              -- (bs, C, W, H) slice with that pair's own history stack
              match b.unet.forward ⟨x.n, x.c, x.w, x.h⟩ "decode" (some hist) with
              | .error e => .error e
              | .ok (.decoded y _) =>
                -- flow : (T, bs, y.c, y.w, y.h)
                let flowSeq : SeqShape := ⟨T, y.n, y.c, y.w, y.h⟩
                -- moved_images = cat of per-pair warps of images[:-1], which
                -- keep the source frame's shape (warpShape)
                let srcFrame : Shape := ⟨images.bs, images.c, images.w, images.h⟩
                let movedFrame := warpShape srcFrame ⟨y.n, y.c, y.w, y.h⟩
                let moved_images : SeqShape :=
                  ⟨T, movedFrame.n, movedFrame.c, movedFrame.w, movedFrame.h⟩
                match labels with
                | some lbs =>
                  -- zip(labels[:-1], flow) truncates to the shorter length
                  let tl := min (lbs.frames - 1) T
                  if tl = 0 then .error .runtime  -- torch.cat([], dim=0)
                  else
                    let srcLbl : Shape := ⟨lbs.bs, lbs.c, lbs.w, lbs.h⟩
                    let movedLbl := warpShape srcLbl ⟨y.n, y.c, y.w, y.h⟩
                    .ok [moved_images,
                         ⟨tl, movedLbl.n, movedLbl.c, movedLbl.w, movedLbl.h⟩,
                         flowSeq]
                | none => .ok [moved_images, flowSeq]
              | .ok _ => .error .runtime  -- unreachable for task='decode'
            else .error .runtime
          else .error .runtime
        else .error .assertion  -- assert T == 39
      else .error .assertion    -- assert bs == 1
    | .ok _ => .error .runtime  -- unreachable for task='encode'

/-!
## Value-level embedding of the `Bottleneck.forward` orchestration

For the claims about tensor *values* (rather than shapes) the subcomponents
— the torch primitives and the learned submodules with their fixed weights —
are abstracted as parameters over an arbitrary tensor type `α`, while the
orchestration logic (the pair loop, the stacking, the assertions, the
per-step decode, the warps and the label-dependent return arity) is
translated from the source.  The random draws `h_0`/`c_0` of
`torch.randn` are lifted to explicit arguments, as the claims fix them. -/

/-- The subcomputations `Bottleneck.forward` composes, with fixed weights:
`torch.cat(·, dim=1)`, the unet encode and decode passes (which can raise),
`torch.cat(·, dim=0)` over nonempty lists (`stack`), the batch-size read of
the stacked tensor's shape, the LSTM applied to the time-major sequence with
a given initial `(h, c)` state, and the spatial-transformer warp. -/
structure TorchOps (α : Type) where
  cat1 : α → α → α
  encode : α → Except PyError (α × List α)
  stack : List α → α
  batchOf : α → Nat
  lstm : List α → α × α → List α
  decode : α → List α → Except PyError α
  warp : α → α → α

/-- The label-independent prefix of `Bottleneck.forward` at value level
(source lines 31–55): the zip over consecutive frame pairs, encode per pair
collecting `X` and `X_history`, `torch.cat` failing on an empty list,
`assert bs == 1`, `assert T == 39`, the LSTM with the explicit `(h0, c0)`
draw, the decode per time step (`lstm_out[i]` with `X_history[i]`), and the
warps of `images[:-1]` against the flow sequence.  Returns
`(moved_images, flow)` before the label-dependent return. -/
def Bottleneck.forwardCore {α : Type} (ops : TorchOps α) (images : List α)
    (h0 c0 : α) : Except PyError (List α × List α) :=
  match (images.dropLast.zip images.tail).mapM
      (fun p => ops.encode (ops.cat1 p.1 p.2)) with
  | .error e => .error e
  | .ok encs =>
    let X := encs.map Prod.fst
    let X_history := encs.map Prod.snd
    if X.isEmpty then .error .runtime  -- encoder_out = torch.cat([], dim=0)
    else
      let encoder_out := ops.stack X
      let T := X.length
      let bs := ops.batchOf encoder_out
      if bs = 1 then
        if T = 39 then
          let lstm_out := ops.lstm X (h0, c0)
          match (List.range T).mapM (fun i =>
              match lstm_out[i]?, X_history[i]? with
              | some xi, some hi => ops.decode xi hi
              | _, _ => .error .index) with
          | .error e => .error e
          | .ok flow =>
            let moved_images := (images.dropLast.zip flow).map
                (fun p => ops.warp p.1 p.2)
            if moved_images.isEmpty then .error .runtime
            else .ok (moved_images, flow)
        else .error .assertion  -- assert T == 39
      else .error .assertion    -- assert bs == 1

/-- `Bottleneck.forward(images, labels=None)` at value level over abstract
tensors: the label-independent core above, then the source's final branch —
warp `labels[:-1]` against the same flow sequence when labels are given
(`zip` truncating to the shorter sequence) and return three stacked tensors,
else two. -/
def Bottleneck.forwardVal {α : Type} (ops : TorchOps α) (images : List α)
    (labels : Option (List α)) (h0 c0 : α) : Except PyError (List α) :=
  match Bottleneck.forwardCore ops images h0 c0 with
  | .error e => .error e
  | .ok (moved_images, flow) =>
    match labels with
    | some lbs =>
      let moved_labels := (lbs.dropLast.zip flow).map
          (fun p => ops.warp p.1 p.2)
      if moved_labels.isEmpty then .error .runtime  -- torch.cat([], dim=0)
      else .ok [ops.stack moved_images, ops.stack moved_labels,
                ops.stack flow]
    | none => .ok [ops.stack moved_images, ops.stack flow]

/-!
## The reference configuration

`Bottleneck.__init__` always builds its `Unet2` with
`enc_nf = [16, 32, 32, 32, 64]`, `dec_nf = [64, 32, 32, 32, 32, 16, 16, 8, 2]`,
`infeats=2` and all remaining arguments at their defaults.  `refUnet` is the
resulting module (for `image_size = [256, 256]`), stated explicitly and
linked to the constructor by `refUnet_init`. -/

/-- The `Unet2` that `Bottleneck.__init__([256, 256])` constructs. -/
def refUnet : Unet2 :=
  { ndims := 2
    half_res := false
    nb_levels := 6
    pooling := [2, 2, 2, 2, 2, 2]
    upsampling := [2, 2, 2, 2, 2, 2]
    encoder := [[⟨2, 16⟩], [⟨16, 32⟩], [⟨32, 32⟩], [⟨32, 32⟩], [⟨32, 64⟩]]
    decoder := [[⟨64, 64⟩], [⟨128, 32⟩], [⟨64, 32⟩], [⟨64, 32⟩], [⟨64, 32⟩]]
    remaining := [⟨48, 16⟩, ⟨16, 16⟩, ⟨16, 8⟩, ⟨8, 2⟩]
    final_nf := 2 }

/-- The `Bottleneck` that `Bottleneck.__init__([256, 256])` constructs:
`C = 64`, `W = H = 256 // 2^5 = 8`, LSTM sizes `64*8*8 = 4096`. -/
def refBottleneck : Bottleneck :=
  { image_size := [256, 256]
    ndims := 2
    unet := refUnet
    input_size := 4096
    hidden_size := 4096 }

theorem refUnet_init :
    Unet2.init [256, 256] 2
      (.listsArg [16, 32, 32, 32, 64] [64, 32, 32, 32, 32, 16, 16, 8, 2])
      none (.intArg 2) 1 1 false = .ok refUnet := rfl

theorem refBottleneck_init :
    Bottleneck.init [256, 256] = .ok refBottleneck := rfl

/-!
## Helper lemmas about the embedded operations -/

theorem listPop_append {α : Type} (l : List α) (a : α) :
    listPop (l ++ [a]) = some (a, l) := by
  simp [listPop]

theorem listPop_length {α : Type} {l r : List α} {a : α}
    (hp : listPop l = some (a, r)) : r.length + 1 = l.length := by
  unfold listPop at hp
  cases hrev : l.reverse with
  | nil => rw [hrev] at hp; exact absurd hp (by simp)
  | cons b rest =>
    rw [hrev] at hp
    have h1 : l.length = rest.length + 1 := by
      have := congrArg List.length hrev
      simpa using this
    cases hp
    simp [h1]

/-- `chainEnd ks c` computes the output channel count of applying the conv
blocks `ks` in order to an input of `c` channels, or `none` where the
channel counts would mismatch at runtime. -/
def chainEnd : List ConvBlock → Nat → Option Nat
  | [], c => some c
  | k :: rest, c => if k.inC = c then chainEnd rest k.outC else none

theorem applyConvs_ok_of_chainEnd {ks : List ConvBlock} {cin cout : Nat}
    (n w h : Nat) (hch : chainEnd ks cin = some cout)
    (hw : 1 ≤ w) (hh : 1 ≤ h) :
    applyConvs ks ⟨n, cin, w, h⟩ = .ok ⟨n, cout, w, h⟩ := by
  induction ks generalizing cin with
  | nil => simp [chainEnd] at hch; simp [applyConvs, hch]
  | cons k rest ih =>
    unfold chainEnd at hch
    by_cases hk : k.inC = cin
    · rw [if_pos hk] at hch
      unfold applyConvs ConvBlock.apply
      rw [if_pos ⟨hk.symm, hw, hh⟩]
      exact ih hch
    · rw [if_neg hk] at hch; exact absurd hch (by simp)

/-- Successful `applyConvs` preserves the batch and spatial dims. -/
theorem applyConvs_dims {ks : List ConvBlock} {x y : Shape}
    (hok : applyConvs ks x = .ok y) :
    y.n = x.n ∧ y.w = x.w ∧ y.h = x.h := by
  induction ks generalizing x with
  | nil => unfold applyConvs at hok; cases hok; exact ⟨rfl, rfl, rfl⟩
  | cons k rest ih =>
    unfold applyConvs ConvBlock.apply at hok
    by_cases hc : x.c = k.inC ∧ 1 ≤ x.w ∧ 1 ≤ x.h
    · rw [if_pos hc] at hok
      exact @ih ⟨x.n, k.outC, x.w, x.h⟩ hok
    · rw [if_neg hc] at hok; exact absurd hok (by simp)

/-- A successful encode pass appends exactly one history entry per encoder
level. -/
theorem encodeLevels_length {pooling : List Nat} {el : List (List ConvBlock)}
    {lvl : Nat} {x y : Shape} {hist hist' : List Shape}
    (hok : encodeLevels pooling lvl el x hist = .ok (y, hist')) :
    hist'.length = hist.length + el.length := by
  induction el generalizing lvl x hist with
  | nil => unfold encodeLevels at hok; cases hok; simp
  | cons convs rest ih =>
    unfold encodeLevels at hok
    cases hc : applyConvs convs x with
    | error e => simp [hc] at hok
    | ok x' =>
      simp only [hc] at hok
      cases hp : pooling[lvl]? with
      | none => simp [hp] at hok
      | some f =>
        simp only [hp] at hok
        cases hq : poolApply f x' with
        | error e => simp [hq] at hok
        | ok x'' =>
          simp only [hq] at hok
          have := ih hok
          simp [this]
          omega

/-- A successful encode pass preserves the batch dim. -/
theorem encodeLevels_batch {pooling : List Nat} {el : List (List ConvBlock)}
    {lvl : Nat} {x y : Shape} {hist hist' : List Shape}
    (hok : encodeLevels pooling lvl el x hist = .ok (y, hist')) :
    y.n = x.n := by
  induction el generalizing lvl x hist with
  | nil => unfold encodeLevels at hok; cases hok; rfl
  | cons convs rest ih =>
    unfold encodeLevels at hok
    cases hc : applyConvs convs x with
    | error e => simp [hc] at hok
    | ok x' =>
      simp only [hc] at hok
      cases hp : pooling[lvl]? with
      | none => simp [hp] at hok
      | some f =>
        simp only [hp] at hok
        cases hq : poolApply f x' with
        | error e => simp [hq] at hok
        | ok x'' =>
          simp only [hq] at hok
          have h1 := ih hok
          have h2 : x''.n = x'.n := by
            unfold poolApply at hq
            by_cases hcond : 1 ≤ f ∧ f ≤ x'.w ∧ f ≤ x'.h
            · rw [if_pos hcond] at hq; cases hq; rfl
            · rw [if_neg hcond] at hq; exact absurd hq (by simp)
          have h3 : x'.n = x.n := (applyConvs_dims hc).1
          omega

/-- With `half_res = False`, a successful decode pass pops exactly one
history entry per decoder level. -/
theorem decodeLevels_length {upsampling : List Nat} {nbl : Nat}
    {dl : List (List ConvBlock)} {lvl : Nat} {x y : Shape}
    {hist hist' : List Shape}
    (hok : decodeLevels upsampling false nbl lvl dl x hist = .ok (y, hist')) :
    hist'.length + dl.length = hist.length := by
  induction dl generalizing lvl x hist with
  | nil => unfold decodeLevels at hok; cases hok; simp
  | cons convs rest ih =>
    unfold decodeLevels at hok
    cases hc : applyConvs convs x with
    | error e => simp [hc] at hok
    | ok x' =>
      simp only [hc] at hok
      rw [if_pos (Or.inl (by simp))] at hok
      cases hu : upsampling[lvl]? with
      | none => simp [hu] at hok
      | some f =>
        simp only [hu] at hok
        cases hp : listPop hist with
        | none => simp [hp] at hok
        | some tp =>
          simp only [hp] at hok
          cases hcat : catChannels (upsampleApply f x') tp.1 with
          | error e => simp [hcat] at hok
          | ok xc =>
            simp only [hcat] at hok
            have h1 := ih hok
            have h2 := listPop_length hp
            simp at h1 ⊢
            omega

/-- With `half_res = False` a decode pass whose history has fewer entries
than there are decoder levels never succeeds (the `list.pop()` of an
exhausted history raises). -/
theorem decodeLevels_short_history {upsampling : List Nat} {nbl : Nat}
    {dl : List (List ConvBlock)} {lvl : Nat} {x : Shape} {hist : List Shape}
    (hshort : hist.length < dl.length) :
    ∀ r, decodeLevels upsampling false nbl lvl dl x hist ≠ .ok r := by
  induction dl generalizing lvl x hist with
  | nil => simp at hshort
  | cons convs rest ih =>
    intro r hok
    unfold decodeLevels at hok
    cases hc : applyConvs convs x with
    | error e => simp [hc] at hok
    | ok x' =>
      simp only [hc] at hok
      rw [if_pos (Or.inl (by simp))] at hok
      cases hu : upsampling[lvl]? with
      | none => simp [hu] at hok
      | some f =>
        simp only [hu] at hok
        cases hp : listPop hist with
        | none => simp [hp] at hok
        | some tp =>
          simp only [hp] at hok
          cases hcat : catChannels (upsampleApply f x') tp.1 with
          | error e => simp [hcat] at hok
          | ok xc =>
            simp only [hcat] at hok
            have h2 := listPop_length hp
            have : tp.2.length < rest.length := by simp at hshort; omega
            exact ih this r hok

/-- Per-level output channel counts of a level structure (list of conv-block
lists), starting from input channel count `c`; `none` where a chain would
mismatch at runtime. -/
def levelsEnd : List (List ConvBlock) → Nat → Option (List Nat)
  | [], _ => some []
  | convs :: rest, c =>
    match chainEnd convs c with
    | none => none
    | some p =>
      match levelsEnd rest p with
      | none => none
      | some ps => some (p :: ps)

/-- Output channel count of the decoder levels: each level chains its convs
and then adds the skip width `ss[i]` of the popped history entry. -/
def decEnd : List (List ConvBlock) → Nat → List Nat → Option Nat
  | [], c, [] => some c
  | convs :: rest, c, s :: ss =>
    match chainEnd convs c with
    | none => none
    | some p => decEnd rest (p + s) ss
  | _, _, _ => none

theorem buildConvs_chainEnd {nf : List Nat} {start count prev : Nat}
    {convs : List ConvBlock} {p : Nat}
    (hb : buildConvs nf start count prev = some (convs, p)) :
    chainEnd convs prev = some p ∧ convs.length = count := by
  induction count generalizing start prev convs with
  | zero => unfold buildConvs at hb; cases hb; exact ⟨rfl, rfl⟩
  | succ k ih =>
    unfold buildConvs at hb
    cases hg : nf[start]? with
    | none => simp [hg] at hb
    | some v =>
      simp only [hg] at hb
      cases hr : buildConvs nf (start + 1) k v with
      | none => simp [hr] at hb
      | some pr =>
        simp only [hr, Option.some.injEq, Prod.mk.injEq] at hb
        obtain ⟨h1, h2⟩ := hb
        subst h1; subst h2
        have := ih hr
        refine ⟨?_, by simp [this.2]⟩
        unfold chainEnd
        rw [if_pos rfl]
        exact this.1

theorem buildLevels_spec {nf : List Nat} {ncpl : Nat} {lvl k prev : Nat}
    {el : List (List ConvBlock)} {ps : List Nat} {pend : Nat}
    (hb : buildLevels nf ncpl lvl k prev = some (el, ps, pend)) :
    levelsEnd el prev = some ps ∧ el.length = k ∧ ps.length = k ∧
      pend = ps.getLastD prev := by
  induction k generalizing lvl prev el ps with
  | zero =>
    unfold buildLevels at hb; cases hb
    exact ⟨rfl, rfl, rfl, rfl⟩
  | succ k ih =>
    unfold buildLevels at hb
    cases hc : buildConvs nf (lvl * ncpl) ncpl prev with
    | none => simp [hc] at hb
    | some cp =>
      simp only [hc] at hb
      cases hr : buildLevels nf ncpl (lvl + 1) k cp.2 with
      | none => simp [hr] at hb
      | some rr =>
        simp only [hr, Option.some.injEq, Prod.mk.injEq] at hb
        obtain ⟨h1, h2, h3⟩ := hb
        subst h1; subst h2; subst h3
        obtain ⟨hch, hlen⟩ := buildConvs_chainEnd (by rw [hc])
        obtain ⟨ih1, ih2, ih3, ih4⟩ := ih hr
        refine ⟨?_, by simp [ih2], by simp [ih3], ?_⟩
        · unfold levelsEnd
          simp only [hch, ih1]
        · rw [ih4, List.getLastD_cons]

theorem buildDecoderLevels_length {nf : List Nat} {ncpl : Nat}
    {enfs : List Nat} {hr : Bool} {nbl lvl k prev : Nat}
    {dl : List (List ConvBlock)} {pend : Nat}
    (hb : buildDecoderLevels nf ncpl enfs hr nbl lvl k prev = some (dl, pend)) :
    dl.length = k := by
  induction k generalizing lvl prev dl with
  | zero => unfold buildDecoderLevels at hb; cases hb; rfl
  | succ k ih =>
    unfold buildDecoderLevels at hb
    cases hc : buildConvs nf (lvl * ncpl) ncpl prev with
    | none => simp [hc] at hb
    | some cp =>
      simp only [hc] at hb
      split at hb
      · exact absurd hb (by simp)
      · split at hb
        · exact absurd hb (by simp)
        · rename_i p'' rr hrec
          simp only [Option.some.injEq, Prod.mk.injEq] at hb
          obtain ⟨h1, h2⟩ := hb
          subst h1; subst h2
          simp [ih hrec]

theorem buildDecoderLevels_spec {nf : List Nat} {ncpl : Nat}
    {enfs : List Nat} {nbl lvl k prev : Nat}
    {dl : List (List ConvBlock)} {pend : Nat}
    (hb : buildDecoderLevels nf ncpl enfs false nbl lvl k prev = some (dl, pend)) :
    decEnd dl prev ((enfs.drop lvl).take k) = some pend := by
  induction k generalizing lvl prev dl with
  | zero => unfold buildDecoderLevels at hb; cases hb; simp [decEnd]
  | succ k ih =>
    unfold buildDecoderLevels at hb
    cases hc : buildConvs nf (lvl * ncpl) ncpl prev with
    | none => simp [hc] at hb
    | some cp =>
      simp only [hc] at hb
      rw [if_pos (Or.inl (by simp))] at hb
      cases hg : enfs[lvl]? with
      | none => simp [hg] at hb
      | some e =>
        simp only [hg] at hb
        cases hrec : buildDecoderLevels nf ncpl enfs false nbl (lvl + 1) k
            (cp.2 + e) with
        | none => simp [hrec] at hb
        | some rr =>
          simp only [hrec, Option.some.injEq, Prod.mk.injEq] at hb
          obtain ⟨h1, h2⟩ := hb
          subst h1; subst h2
          have hlt : lvl < enfs.length := by
            by_contra hge
            rw [List.getElem?_eq_none (by omega)] at hg
            exact absurd hg (by simp)
          have hdrop : enfs.drop lvl = e :: enfs.drop (lvl + 1) := by
            rw [List.drop_eq_getElem_cons hlt]
            congr 1
            have hge := List.getElem?_eq_getElem hlt
            rw [hge] at hg
            exact Option.some_inj.mp hg
          rw [hdrop]
          simp only [List.take_succ_cons]
          unfold decEnd
          obtain ⟨hch, _⟩ := buildConvs_chainEnd (by rw [hc])
          simp only [hch]
          exact ih hrec

theorem chainConvs_chainEnd (nfs : List Nat) (prev : Nat) :
    chainEnd (chainConvs nfs prev).1 prev = some (chainConvs nfs prev).2 := by
  induction nfs generalizing prev with
  | nil => rfl
  | cons nf rest ih =>
    unfold chainConvs chainEnd
    simp only []
    simpa using ih nf

/-- The per-level pre-pooling activations recorded by a successful encode
pass (beyond the initial input entry): level `i` records channels `ps[i]` at
the spatial dims reached after `i` poolings (iterated floor division). -/
def encEntries (ps : List Nat) (n w h m : Nat) : List Shape :=
  match ps with
  | [] => []
  | p :: rest => ⟨n, p, w, h⟩ :: encEntries rest n (w / m) (h / m) m

/-- The shapes popped by a successful decode pass, in pop order: starting
from the bottleneck spatial dims `(a, b)`, the `i`-th popped skip has
channels `ss[i]` at spatial dims `(a * m^(i+1), b * m^(i+1))`. -/
def decSkips (ss : List Nat) (n a b m : Nat) : List Shape :=
  match ss with
  | [] => []
  | s :: rest => ⟨n, s, a * m, b * m⟩ :: decSkips rest n (a * m) (b * m) m

theorem encEntries_cons (p : Nat) (rest : List Nat) (n w h m : Nat) :
    encEntries (p :: rest) n w h m =
      ⟨n, p, w, h⟩ :: encEntries rest n (w / m) (h / m) m := rfl

theorem decSkips_cons (s : Nat) (rest : List Nat) (n a b m : Nat) :
    decSkips (s :: rest) n a b m =
      ⟨n, s, a * m, b * m⟩ :: decSkips rest n (a * m) (b * m) m := rfl

/-- Running the encoder levels: with chained channels, enough pooling
factors, and spatial dims at least `m^levels`, the pass succeeds, halving
(flooring) by `m` per level and recording one entry per level.  No
divisibility of the spatial dims is required. -/
theorem encodeLevels_run (m K : Nat) (el : List (List ConvBlock))
    (ps : List Nat) (lvl : Nat) (x : Shape) (hist : List Shape)
    (hle : levelsEnd el x.c = some ps)
    (hK : lvl + el.length ≤ K)
    (hm : 1 ≤ m)
    (hw : m ^ el.length ≤ x.w) (hh : m ^ el.length ≤ x.h) :
    encodeLevels (List.replicate K m) lvl el x hist =
      .ok (⟨x.n, ps.getLastD x.c, x.w / m ^ el.length, x.h / m ^ el.length⟩,
           hist ++ encEntries ps x.n x.w x.h m) := by
  induction el generalizing lvl x hist ps with
  | nil =>
    unfold levelsEnd at hle; cases hle
    unfold encodeLevels encEntries
    simp
  | cons convs rest ih =>
    unfold levelsEnd at hle
    cases hch : chainEnd convs x.c with
    | none => simp [hch] at hle
    | some p =>
      simp only [hch] at hle
      cases hrest : levelsEnd rest p with
      | none => simp [hrest] at hle
      | some ps' =>
        simp only [hrest, Option.some.injEq] at hle
        subst hle
        have hw1 : 1 ≤ x.w := le_trans (Nat.one_le_pow _ _ hm) hw
        have hh1 : 1 ≤ x.h := le_trans (Nat.one_le_pow _ _ hm) hh
        have hconv : applyConvs convs x = .ok ⟨x.n, p, x.w, x.h⟩ :=
          applyConvs_ok_of_chainEnd x.n x.w x.h hch hw1 hh1
        have hmw : m ≤ x.w :=
          le_trans (Nat.le_self_pow (Nat.succ_ne_zero _) m) hw
        have hmh : m ≤ x.h :=
          le_trans (Nat.le_self_pow (Nat.succ_ne_zero _) m) hh
        unfold encodeLevels
        simp only [hconv]
        rw [List.getElem?_replicate, if_pos (show lvl < K by simp at hK; omega)]
        have hpool : poolApply m ⟨x.n, p, x.w, x.h⟩ =
            .ok ⟨x.n, p, x.w / m, x.h / m⟩ := by
          unfold poolApply
          rw [if_pos ⟨hm, hmw, hmh⟩]
        simp only [hpool]
        have hw' : m ^ rest.length ≤ x.w / m := by
          rw [Nat.le_div_iff_mul_le hm]
          calc m ^ rest.length * m = m ^ (rest.length + 1) := by rw [pow_succ]
          _ ≤ x.w := hw
        have hh' : m ^ rest.length ≤ x.h / m := by
          rw [Nat.le_div_iff_mul_le hm]
          calc m ^ rest.length * m = m ^ (rest.length + 1) := by rw [pow_succ]
          _ ≤ x.h := hh
        have hrec := ih ps' (lvl + 1) (Shape.mk x.n p (x.w / m) (x.h / m))
          (hist ++ [Shape.mk x.n p x.w x.h]) hrest
          (by simp at hK ⊢; omega) hw' hh'
        rw [hrec, encEntries_cons,
          show (p :: ps').getLastD x.c = ps'.getLastD p from
            List.getLastD_cons _ _ _]
        simp [Nat.div_div_eq_div_mul, pow_succ']

theorem decSkips_append (l : List Nat) (s : Nat) (n a b m : Nat) :
    decSkips (l ++ [s]) n a b m =
      decSkips l n a b m ++
        [⟨n, s, a * m ^ (l.length + 1), b * m ^ (l.length + 1)⟩] := by
  induction l generalizing a b with
  | nil => simp [decSkips]
  | cons t rest ih =>
    unfold decSkips
    simp only [List.cons_append]
    rw [ih]
    simp [mul_assoc, pow_succ']

/-- The history entries recorded by encode, read back at exactly divisible
spatial dims, are the reversal of the skips decode will pop. -/
theorem encEntries_eq_decSkips (ps : List Nat) (n a b m : Nat) (hm : 1 ≤ m) :
    encEntries ps n (a * m ^ ps.length) (b * m ^ ps.length) m =
      (decSkips ps.reverse n a b m).reverse := by
  induction ps generalizing a b with
  | nil => simp [encEntries, decSkips]
  | cons p rest ih =>
    unfold encEntries
    have hdiv : ∀ q : Nat, q * m ^ (rest.length + 1) / m = q * m ^ rest.length := by
      intro q
      rw [pow_succ, ← mul_assoc, Nat.mul_div_cancel _ hm]
    simp only [List.length_cons, hdiv, List.reverse_cons, decSkips_append,
      List.reverse_append, List.length_reverse, List.reverse_cons]
    rw [ih]
    simp [pow_succ]

/-- Running the decoder levels with `half_res = False`: with chained
channels (skip widths added per level), enough upsampling factors, and a
history whose popped suffix is exactly the reversed skip stack, the pass
succeeds, multiplying the spatial dims by `m` per level and leaving the
`bottom` of the history untouched. -/
theorem decodeLevels_run (m K nbl : Nat) (dl : List (List ConvBlock))
    (ss : List Nat) (cend : Nat) (lvl : Nat) (n c a b : Nat)
    (bottom : List Shape)
    (hde : decEnd dl c ss = some cend)
    (hK : lvl + dl.length ≤ K)
    (hm : 1 ≤ m) (ha : 1 ≤ a) (hb : 1 ≤ b) :
    decodeLevels (List.replicate K m) false nbl lvl dl ⟨n, c, a, b⟩
        (bottom ++ (decSkips ss n a b m).reverse) =
      .ok (⟨n, cend, a * m ^ dl.length, b * m ^ dl.length⟩, bottom) := by
  induction dl generalizing ss cend lvl c a b with
  | nil =>
    cases ss with
    | nil =>
      unfold decEnd at hde
      cases hde
      unfold decodeLevels
      simp [decSkips]
    | cons s rest => exact absurd hde (by simp [decEnd])
  | cons convs rest ih =>
    cases ss with
    | nil => exact absurd hde (by simp [decEnd])
    | cons s ss' =>
      unfold decEnd at hde
      cases hch : chainEnd convs c with
      | none => simp [hch] at hde
      | some p =>
        simp only [hch] at hde
        have hconv : applyConvs convs ⟨n, c, a, b⟩ = .ok ⟨n, p, a, b⟩ :=
          applyConvs_ok_of_chainEnd n a b hch ha hb
        unfold decodeLevels
        simp only [hconv]
        rw [if_pos (Or.inl (by simp))]
        rw [List.getElem?_replicate, if_pos (show lvl < K by simp at hK; omega)]
        have hsplit : bottom ++ (decSkips (s :: ss') n a b m).reverse =
            (bottom ++ (decSkips ss' n (a * m) (b * m) m).reverse) ++
              [Shape.mk n s (a * m) (b * m)] := by
          rw [decSkips_cons]
          simp
        rw [hsplit, listPop_append]
        simp only []
        have hcat : catChannels (upsampleApply m ⟨n, p, a, b⟩)
            ⟨n, s, a * m, b * m⟩ = .ok ⟨n, p + s, a * m, b * m⟩ := by
          unfold upsampleApply catChannels
          rw [if_pos ⟨rfl, rfl, rfl⟩]
        simp only [hcat]
        rw [ih ss' cend (lvl + 1) (p + s) (a * m) (b * m) hde
            (by simp at hK ⊢; omega) (Nat.one_le_iff_ne_zero.mpr
              (by positivity)) (Nat.one_le_iff_ne_zero.mpr (by positivity))]
        simp [mul_assoc, pow_succ']

/-- Structure of a successfully constructed `Unet2` with a scalar `max_pool`
and `half_res=False`: the pooling/upsampling caches hold `nb_levels` copies
of the factor; encoder and decoder have `nb_levels - 1` levels; the encoder
convs chain from `infeats` through per-level output widths `ps`; the decoder
convs chain from the encoder's final width, adding the reversed `ps` as skip
widths, and the remaining convs chain on to `final_nf`. -/
theorem unet2_init_spec {inshape : List Nat} {infeats : Nat}
    {nbf : NbFeatures} {nbl : Option Nat} {m fm ncpl : Nat} {u : Unet2}
    (hinit : Unet2.init inshape infeats nbf nbl (.intArg m) fm ncpl false
      = .ok u) :
    u.half_res = false ∧
    u.pooling = List.replicate u.nb_levels m ∧
    u.upsampling = List.replicate u.nb_levels m ∧
    u.encoder.length + 1 = u.nb_levels ∧
    u.decoder.length + 1 = u.nb_levels ∧
    ∃ ps cdec, levelsEnd u.encoder infeats = some ps ∧
      ps.length = u.encoder.length ∧
      decEnd u.decoder (ps.getLastD infeats) ps.reverse = some cdec ∧
      chainEnd u.remaining cdec = some u.final_nf := by
  simp only [Unet2.init] at hinit
  split at hinit
  case isFalse => exact absurd hinit (by simp)
  case isTrue hnd =>
    split at hinit
    case h_1 => exact absurd hinit (by simp)
    case h_2 enc_nf dec_nf heq =>
      split at hinit
      case isTrue => exact absurd hinit (by simp)
      case isFalse hz =>
        cases hbl : buildLevels enc_nf ncpl 0
            (enc_nf.length / ncpl + 1 - 1) infeats with
        | none => rw [hbl] at hinit; exact absurd hinit (by simp)
        | some r1 =>
          rw [hbl] at hinit
          simp only [] at hinit
          cases hbd : buildDecoderLevels (List.take enc_nf.length dec_nf) ncpl
              ((infeats :: r1.2.1).reverse) false
              (enc_nf.length / ncpl + 1) 0
              (enc_nf.length / ncpl + 1 - 1) r1.2.2 with
          | none => rw [hbd] at hinit; exact absurd hinit (by simp)
          | some r2 =>
            rw [hbd] at hinit
            simp only [Except.ok.injEq] at hinit
            subst hinit
            obtain ⟨hL1, hL2, hL3, hL4⟩ := buildLevels_spec (by rw [hbl])
            have hD1 := buildDecoderLevels_spec (by rw [hbd])
            have hD2 := buildDecoderLevels_length (by rw [hbd])
            refine ⟨rfl, rfl, rfl, ?_, ?_, r1.2.1, r2.2, hL1, ?_, ?_, ?_⟩
            · show r1.1.length + 1 = enc_nf.length / ncpl + 1
              simp [hL2]
            · show r2.1.length + 1 = enc_nf.length / ncpl + 1
              simp [hD2]
            · show r1.2.1.length = r1.1.length
              rw [hL3, hL2]
            · -- the skips consumed are exactly the reversed per-level widths
              have htake : (List.drop 0 ((infeats :: r1.2.1).reverse)).take
                  (enc_nf.length / ncpl + 1 - 1) = r1.2.1.reverse := by
                simp only [List.drop_zero, List.reverse_cons]
                have hlen : enc_nf.length / ncpl + 1 - 1 =
                    r1.2.1.reverse.length := by simp [hL3]
                rw [hlen, List.take_left]
              rw [htake, hL4] at hD1
              exact hD1
            · exact chainConvs_chainEnd _ _

/-!
## Characterizations of the reference configuration -/

/-- The reference encoder succeeds on any input `(n, 2, w, h)` with
`w, h ≥ 32`, whether or not `w` and `h` are divisible by `2^5 = 32`: each
of the five poolings floors the spatial dims. -/
theorem refUnet_encode_floor (n w h : Nat) (hw : 32 ≤ w) (hh : 32 ≤ h) :
    refUnet.encode ⟨n, 2, w, h⟩ =
      .ok (⟨n, 64, w / 32, h / 32⟩,
        [⟨n, 2, w, h⟩, ⟨n, 16, w, h⟩, ⟨n, 32, w / 2, h / 2⟩,
         ⟨n, 32, w / 4, h / 4⟩, ⟨n, 32, w / 8, h / 8⟩,
         ⟨n, 64, w / 16, h / 16⟩]) := by
  have hrun := encodeLevels_run 2 6 refUnet.encoder [16, 32, 32, 32, 64] 0
    ⟨n, 2, w, h⟩ [⟨n, 2, w, h⟩] (by rfl) (by simp [refUnet]) (by norm_num)
    (by show 2 ^ 5 ≤ w; norm_num; omega) (by show 2 ^ 5 ≤ h; norm_num; omega)
  have hpool : refUnet.pooling = List.replicate 6 2 := rfl
  unfold Unet2.encode
  rw [hpool, hrun]
  have hlen : refUnet.encoder.length = 5 := rfl
  simp [encEntries, Nat.div_div_eq_div_mul, hlen]

/-!
## The claims -/

/-- C2 counterexample: the spatial dims `48 × 48` are not divisible by the
cumulative pooling factor `2^5 = 32`, yet the reference `Unet2` encode
succeeds (returning the floored bottleneck `(1, 64, 1, 1)`) instead of
raising a precondition failure. -/
theorem C2_cex :
    ¬ (32 ∣ 48) ∧
    refUnet.encode ⟨1, 2, 48, 48⟩ =
      .ok (⟨1, 64, 1, 1⟩,
        [⟨1, 2, 48, 48⟩, ⟨1, 16, 48, 48⟩, ⟨1, 32, 24, 24⟩,
         ⟨1, 32, 12, 12⟩, ⟨1, 32, 6, 6⟩, ⟨1, 64, 3, 3⟩]) :=
  ⟨by omega, rfl⟩

/-- C2 amended: `Unet2` encode performs no divisibility check.  In the
reference configuration it succeeds on every input whose spatial dims are at
least `32` — divisible by `2^5` or not — silently flooring the spatial dims
at each pooling level, and produces the floored bottleneck
`(n, 64, w / 32, h / 32)`. -/
theorem C2_encode_floors_instead_of_failing (n w h : Nat)
    (hw : 32 ≤ w) (hh : 32 ≤ h) :
    refUnet.encode ⟨n, 2, w, h⟩ =
      .ok (⟨n, 64, w / 32, h / 32⟩,
        [⟨n, 2, w, h⟩, ⟨n, 16, w, h⟩, ⟨n, 32, w / 2, h / 2⟩,
         ⟨n, 32, w / 4, h / 4⟩, ⟨n, 32, w / 8, h / 8⟩,
         ⟨n, 64, w / 16, h / 16⟩]) :=
  refUnet_encode_floor n w h hw hh

/-- C2 witness: the amended theorem evaluated at the non-divisible input
`(1, 2, 33, 48)`. -/
theorem C2_witness :
    refUnet.encode ⟨1, 2, 33, 48⟩ =
      .ok (⟨1, 64, 1, 1⟩,
        [⟨1, 2, 33, 48⟩, ⟨1, 16, 33, 48⟩, ⟨1, 32, 16, 24⟩,
         ⟨1, 32, 8, 12⟩, ⟨1, 32, 4, 6⟩, ⟨1, 64, 2, 3⟩]) :=
  C2_encode_floors_instead_of_failing 1 33 48 (by omega) (by omega)

/-- C10: for every task string other than `'encode'` and `'decode'`,
`Unet2.forward` skips both branches, performs no computation, and falls off
the end of the function returning Python `None` — it does not raise. -/
theorem C10_other_task_returns_none (u : Unet2) (x : Shape) (task : String)
    (hist : Option (List Shape))
    (h1 : task ≠ "encode") (h2 : task ≠ "decode") :
    u.forward x task hist = .ok .pyNone := by
  unfold Unet2.forward
  rw [if_neg h1, if_neg h2]

/-- C10 witness: the theorem applied at the concrete task `'transcode'`. -/
theorem C10_witness :
    refUnet.forward ⟨1, 2, 256, 256⟩ "transcode" none = .ok .pyNone :=
  C10_other_task_returns_none refUnet ⟨1, 2, 256, 256⟩ "transcode" none
    (by decide) (by decide)

/-- C9: `Unet2.__init__` fails immediately when the spatial dimensionality
is not 1, 2 or 3 (the `assert`), when `nb_features` is an integer but
`nb_levels` was not provided (`ValueError`), or when `nb_levels` is
provided while `nb_features` is not an integer (`ValueError`) — it never
silently defaults in those cases. -/
theorem C9_config_errors (inshape : List Nat) (infeats : Nat)
    (nbf : NbFeatures) (nbl : Option Nat) (mp : MaxPoolArg) (fm ncpl : Nat)
    (hr : Bool) :
    (inshape.length ∉ [1, 2, 3] →
      Unet2.init inshape infeats nbf nbl mp fm ncpl hr = .error .assertion) ∧
    (inshape.length ∈ [1, 2, 3] → nbf.isInt = true → nbl = none →
      Unet2.init inshape infeats nbf nbl mp fm ncpl hr = .error .value) ∧
    (inshape.length ∈ [1, 2, 3] → nbf.isInt = false → nbl.isSome = true →
      Unet2.init inshape infeats nbf nbl mp fm ncpl hr = .error .value) := by
  refine ⟨fun hnd => ?_, fun hnd hint hnone => ?_, fun hnd hnotint hsome => ?_⟩
  · unfold Unet2.init
    rw [if_neg hnd]
  · cases nbf with
    | intArg k =>
      subst hnone
      unfold Unet2.init
      rw [if_pos hnd]
    | noneArg => simp [NbFeatures.isInt] at hint
    | listsArg e d => simp [NbFeatures.isInt] at hint
  · cases nbl with
    | none => simp at hsome
    | some L =>
      cases nbf with
      | intArg k => simp [NbFeatures.isInt] at hnotint
      | noneArg =>
        unfold Unet2.init
        rw [if_pos hnd]
      | listsArg e d =>
        unfold Unet2.init
        rw [if_pos hnd]

/-- C9 witness: the three error cases at concrete configurations —
a 4-d `inshape`, an integer `nb_features` without `nb_levels`, and a list
`nb_features` with `nb_levels` supplied. -/
theorem C9_witness :
    Unet2.init [4, 4, 4, 4] 2 .noneArg none (.intArg 2) 1 1 false
        = .error .assertion ∧
    Unet2.init [4, 4] 2 (.intArg 8) none (.intArg 2) 1 1 false
        = .error .value ∧
    Unet2.init [4, 4] 2 .noneArg (some 3) (.intArg 2) 1 1 false
        = .error .value :=
  ⟨(C9_config_errors [4, 4, 4, 4] 2 .noneArg none (.intArg 2) 1 1 false).1
      (by decide),
   (C9_config_errors [4, 4] 2 (.intArg 8) none (.intArg 2) 1 1 false).2.1
      (by decide) (by decide) rfl,
   (C9_config_errors [4, 4] 2 .noneArg (some 3) (.intArg 2) 1 1 false).2.2
      (by decide) (by decide) (by decide)⟩

/-- Any successfully constructed `Unet2` has as many decoder levels as
encoder levels (both `nb_levels - 1`), and records its `half_res` flag. -/
theorem unet2_init_lengths {inshape : List Nat} {infeats : Nat}
    {nbf : NbFeatures} {nbl : Option Nat} {mp : MaxPoolArg} {fm ncpl : Nat}
    {hr : Bool} {u : Unet2}
    (hinit : Unet2.init inshape infeats nbf nbl mp fm ncpl hr = .ok u) :
    u.half_res = hr ∧ u.encoder.length = u.decoder.length := by
  simp only [Unet2.init] at hinit
  split at hinit
  case isFalse => exact absurd hinit (by simp)
  case isTrue hnd =>
    split at hinit
    case h_1 => exact absurd hinit (by simp)
    case h_2 enc_nf dec_nf heq =>
      split at hinit
      case isTrue => exact absurd hinit (by simp)
      case isFalse hz =>
        cases hbl : buildLevels enc_nf ncpl 0
            (enc_nf.length / ncpl + 1 - 1) infeats with
        | none => rw [hbl] at hinit; exact absurd hinit (by simp)
        | some r1 =>
          rw [hbl] at hinit
          simp only [] at hinit
          cases hbd : buildDecoderLevels (List.take enc_nf.length dec_nf) ncpl
              ((infeats :: r1.2.1).reverse) hr
              (enc_nf.length / ncpl + 1) 0
              (enc_nf.length / ncpl + 1 - 1) r1.2.2 with
          | none => rw [hbd] at hinit; exact absurd hinit (by simp)
          | some r2 =>
            rw [hbd] at hinit
            simp only [Except.ok.injEq] at hinit
            subst hinit
            obtain ⟨_, hL2, _, _⟩ := buildLevels_spec (by rw [hbl])
            have hD2 := buildDecoderLevels_length (by rw [hbd])
            exact ⟨rfl, by show r1.1.length = r2.1.length; rw [hL2, hD2]⟩

/-- C1 counterexample: on the reference configuration, a matching
encode→decode cycle leaves the history stack with length `1` — the original
input entry is never popped — not length `0` as the claim states. -/
theorem C1_cex :
    refUnet.encode ⟨1, 2, 256, 256⟩ =
      .ok (⟨1, 64, 8, 8⟩,
        [⟨1, 2, 256, 256⟩, ⟨1, 16, 256, 256⟩, ⟨1, 32, 128, 128⟩,
         ⟨1, 32, 64, 64⟩, ⟨1, 32, 32, 32⟩, ⟨1, 64, 16, 16⟩]) ∧
    (refUnet.decode ⟨1, 64, 8, 8⟩
        (some [⟨1, 2, 256, 256⟩, ⟨1, 16, 256, 256⟩, ⟨1, 32, 128, 128⟩,
               ⟨1, 32, 64, 64⟩, ⟨1, 32, 32, 32⟩, ⟨1, 64, 16, 16⟩])).map
      (fun r => r.2.length) = .ok 1 ∧
    (1 : Nat) ≠ 0 :=
  ⟨rfl, rfl, by omega⟩

/-- C1 amended: for every `Unet2` constructed with `half_res=False` (as
`Bottleneck` always does), decode pops exactly one history entry per
upsampling level, which is one fewer than encode records (encode pushes the
raw input before the per-level activations), so after a successful matching
encode→decode cycle the history stack has length exactly `1` — the original
input entry remains — rather than `0`. -/
theorem C1_decode_leaves_one_entry {inshape : List Nat} {infeats : Nat}
    {nbf : NbFeatures} {nbl : Option Nat} {mp : MaxPoolArg} {fm ncpl : Nat}
    {u : Unet2} {x y z : Shape} {hist hist' : List Shape}
    (hinit : Unet2.init inshape infeats nbf nbl mp fm ncpl false = .ok u)
    (henc : u.encode x = .ok (y, hist))
    (hdec : u.decode y (some hist) = .ok (z, hist')) :
    hist'.length = 1 := by
  obtain ⟨hhr, hlen⟩ := unet2_init_lengths hinit
  have hencl : hist.length = 1 + u.encoder.length := by
    have := encodeLevels_length henc
    simpa using this
  unfold Unet2.decode at hdec
  rw [hhr] at hdec
  cases hd1 : decodeLevels u.upsampling false u.nb_levels 0 u.decoder y hist with
  | error e => simp [hd1] at hdec
  | ok pr =>
    simp only [hd1] at hdec
    cases hd2 : applyConvs u.remaining pr.1 with
    | error e => simp [hd2] at hdec
    | ok x'' =>
      simp only [hd2, Except.ok.injEq, Prod.mk.injEq] at hdec
      obtain ⟨_, h2⟩ := hdec
      subst h2
      have hdecl := decodeLevels_length (by rw [hd1])
      omega

/-- C1 witness: the amended theorem applied to the reference
configuration's encode→decode cycle on a `(1, 2, 256, 256)` frame pair. -/
theorem C1_witness : ([(⟨1, 2, 256, 256⟩ : Shape)]).length = 1 :=
  C1_decode_leaves_one_entry refUnet_init
    (show refUnet.encode ⟨1, 2, 256, 256⟩ =
      .ok (⟨1, 64, 8, 8⟩,
        [⟨1, 2, 256, 256⟩, ⟨1, 16, 256, 256⟩, ⟨1, 32, 128, 128⟩,
         ⟨1, 32, 64, 64⟩, ⟨1, 32, 32, 32⟩, ⟨1, 64, 16, 16⟩]) from rfl)
    (show refUnet.decode ⟨1, 64, 8, 8⟩
        (some [⟨1, 2, 256, 256⟩, ⟨1, 16, 256, 256⟩, ⟨1, 32, 128, 128⟩,
               ⟨1, 32, 64, 64⟩, ⟨1, 32, 32, 32⟩, ⟨1, 64, 16, 16⟩]) =
      .ok (⟨1, 2, 256, 256⟩, [⟨1, 2, 256, 256⟩]) from rfl)

/-- C4 counterexample: a history stack of length `7` does not match the `5`
decoder levels expecting a skip connection, yet decode accepts it: the top
five entries are consumed and the surplus two are left behind — too-long
stacks are not rejected. -/
theorem C4_cex :
    refUnet.decoder.length = 5 ∧ (7 : Nat) ≠ 5 ∧
    refUnet.decode ⟨1, 64, 8, 8⟩
        (some [⟨9, 9, 9, 9⟩, ⟨1, 2, 256, 256⟩, ⟨1, 16, 256, 256⟩,
               ⟨1, 32, 128, 128⟩, ⟨1, 32, 64, 64⟩, ⟨1, 32, 32, 32⟩,
               ⟨1, 64, 16, 16⟩]) =
      .ok (⟨1, 2, 256, 256⟩, [⟨9, 9, 9, 9⟩, ⟨1, 2, 256, 256⟩]) :=
  ⟨rfl, by omega, rfl⟩

/-- C4 amended: decode raises (`AssertionError`) when the history stack is
absent, and — with `half_res=False` — fails whenever the stack has fewer
entries than there are decoder levels (`list.pop()` of an exhausted list
raises `IndexError`); a stack with more entries than needed, however, is
accepted and the surplus left unconsumed. -/
theorem C4_decode_rejects_absent_or_short (u : Unet2) (x : Shape)
    (hist : List Shape) (hhr : u.half_res = false)
    (hshort : hist.length < u.decoder.length) :
    u.decode x none = .error .assertion ∧
    ∀ r, u.decode x (some hist) ≠ .ok r := by
  constructor
  · rfl
  · intro r hok
    unfold Unet2.decode at hok
    rw [hhr] at hok
    cases hd1 : decodeLevels u.upsampling false u.nb_levels 0 u.decoder x hist with
    | error e => simp [hd1] at hok
    | ok pr => exact decodeLevels_short_history hshort pr (by rw [hd1])

/-- C4 witness: the amended theorem applied to the reference configuration
with an empty history stack. -/
theorem C4_witness :
    refUnet.decode ⟨1, 64, 8, 8⟩ none = .error .assertion ∧
    ∀ r, refUnet.decode ⟨1, 64, 8, 8⟩ (some []) ≠ .ok r :=
  C4_decode_rejects_absent_or_short refUnet ⟨1, 64, 8, 8⟩ [] rfl (by decide)

/-- The encode dispatch of `Unet2.forward` succeeds exactly as
`Unet2.encode` does. -/
theorem unet2_forward_encode_ok {u : Unet2} {x y : Shape} {hist : List Shape}
    (h : u.forward x "encode" none = .ok (.encoded y hist)) :
    u.encode x = .ok (y, hist) := by
  unfold Unet2.forward at h
  rw [if_pos rfl] at h
  cases he : u.encode x with
  | error e => simp [he] at h
  | ok pr =>
    simp only [he, Except.ok.injEq, UnetResult.encoded.injEq] at h
    obtain ⟨h1, h2⟩ := h
    rw [← h1, ← h2]

/-- A successful `Bottleneck.forward` implies the entry invariants: batch
size `1` and exactly `40` frames (`T = 39` pairs). -/
theorem bottleneck_forward_ok_inv {b : Bottleneck} {images : SeqShape}
    {labels : Option SeqShape} {res : List SeqShape}
    (hok : b.forward images labels = .ok res) :
    images.bs = 1 ∧ images.frames = 40 := by
  simp only [Bottleneck.forward] at hok
  split at hok
  · exact absurd hok (by simp)
  · rename_i hT0
    cases hf : b.unet.forward
        ⟨images.bs, images.c + images.c, images.w, images.h⟩ "encode" none with
    | error e => simp [hf] at hok
    | ok ur =>
      cases ur with
      | decoded x hist => simp [hf] at hok
      | pyNone => simp [hf] at hok
      | encoded x hist =>
        simp only [hf] at hok
        have hxn : x.n = images.bs :=
          encodeLevels_batch (unet2_forward_encode_ok hf)
        split at hok
        · rename_i hbs
          split at hok
          · rename_i hT39
            constructor
            · rw [← hxn]; exact hbs
            · omega
          · exact absurd hok (by simp)
        · exact absurd hok (by simp)

/-- On the reference configuration with valid `256 × 256` single-channel
frames and at least one frame pair, any violation of the entry invariants —
batch size not `1`, or frame count not `40` — makes `Bottleneck.forward`
raise an `AssertionError` (the two `assert` statements). -/
theorem refBottleneck_forward_assertion (frames bs : Nat)
    (labels : Option SeqShape) (h2 : 2 ≤ frames)
    (hviol : bs ≠ 1 ∨ frames ≠ 40) :
    refBottleneck.forward ⟨frames, bs, 1, 256, 256⟩ labels =
      .error .assertion := by
  simp only [Bottleneck.forward]
  rw [if_neg (show ¬(frames - 1 = 0) by omega)]
  have hu : refBottleneck.unet = refUnet := rfl
  have henc : refBottleneck.unet.forward ⟨bs, 1 + 1, 256, 256⟩ "encode" none
      = .ok (.encoded ⟨bs, 64, 8, 8⟩
        [⟨bs, 2, 256, 256⟩, ⟨bs, 16, 256, 256⟩, ⟨bs, 32, 128, 128⟩,
         ⟨bs, 32, 64, 64⟩, ⟨bs, 32, 32, 32⟩, ⟨bs, 64, 16, 16⟩]) := by
    unfold Unet2.forward
    rw [if_pos rfl, hu]
    rw [show ((⟨bs, 1 + 1, 256, 256⟩ : Shape)) = ⟨bs, 2, 256, 256⟩ from rfl]
    rw [refUnet_encode_floor bs 256 256 (by omega) (by omega)]
  rw [henc]
  simp only []
  by_cases hbs : bs = 1
  · rw [if_pos hbs, if_neg (show ¬(frames - 1 = 39) by omega)]
  · rw [if_neg hbs]

/-- C3: at entry to the recurrent stage `Bottleneck.forward` enforces the
invariants `bs == 1` and `T == 39` (one fewer than the 40-frame reference
input): every successful call has batch size `1` and exactly `40` frames
(never truncating or padding), and on the reference configuration any
violating input fails fast with an `AssertionError`. -/
theorem C3_entry_asserts :
    (∀ (image_size : List Nat) (b : Bottleneck) (images : SeqShape)
       (labels : Option SeqShape) (res : List SeqShape),
       Bottleneck.init image_size = .ok b →
       b.forward images labels = .ok res →
       images.bs = 1 ∧ images.frames = 40) ∧
    (∀ (frames bs : Nat) (labels : Option SeqShape), 2 ≤ frames → bs ≠ 1 →
       refBottleneck.forward ⟨frames, bs, 1, 256, 256⟩ labels =
         .error .assertion) :=
  ⟨fun _ _ _ _ _ _ hok => bottleneck_forward_ok_inv hok,
   fun frames bs labels h2 hbs =>
     refBottleneck_forward_assertion frames bs labels h2 (Or.inl hbs)⟩

/-- C3 witness: a compliant 40-frame batch-1 input satisfies the invariant
(and indeed succeeds), and a batch-size-5 input raises an
`AssertionError`. -/
theorem C3_witness :
    ((⟨40, 1, 1, 256, 256⟩ : SeqShape).bs = 1 ∧
      (⟨40, 1, 1, 256, 256⟩ : SeqShape).frames = 40) ∧
    refBottleneck.forward ⟨40, 5, 1, 256, 256⟩ none = .error .assertion :=
  ⟨C3_entry_asserts.1 [256, 256] refBottleneck ⟨40, 1, 1, 256, 256⟩ none
      [⟨39, 1, 1, 256, 256⟩, ⟨39, 1, 2, 256, 256⟩] refBottleneck_init
      (show refBottleneck.forward ⟨40, 1, 1, 256, 256⟩ none =
        .ok [⟨39, 1, 1, 256, 256⟩, ⟨39, 1, 2, 256, 256⟩] from rfl),
   C3_entry_asserts.2 40 5 none (by omega) (by omega)⟩

/-- C8 counterexample: with a single frame there are no frame pairs, `X` is
empty, and `torch.cat(X, dim=0)` raises a `RuntimeError` before either
assertion is reached — not an `AssertionError`. -/
theorem C8_cex :
    refBottleneck.forward ⟨1, 1, 1, 256, 256⟩ none = .error .runtime ∧
    PyError.runtime ≠ PyError.assertion :=
  ⟨rfl, by decide⟩

/-- C8 amended: the `assert T == 39` compares against the hard-coded
constant `39`, so no sequence length other than `40` frames is ever
accepted; for reference-shaped inputs with at least `2` frames, any frame
count other than `40` raises an `AssertionError`, while `0`- or `1`-frame
inputs fail earlier with a `RuntimeError` from concatenating an empty
list. -/
theorem C8_rejects_non40 :
    (∀ (frames bs : Nat) (labels : Option SeqShape),
       2 ≤ frames → frames ≠ 40 →
       refBottleneck.forward ⟨frames, bs, 1, 256, 256⟩ labels =
         .error .assertion) ∧
    (∀ (image_size : List Nat) (b : Bottleneck) (images : SeqShape)
       (labels : Option SeqShape) (res : List SeqShape),
       Bottleneck.init image_size = .ok b →
       b.forward images labels = .ok res → images.frames = 40) :=
  ⟨fun frames bs labels h2 h40 =>
     refBottleneck_forward_assertion frames bs labels h2 (Or.inr h40),
   fun _ _ _ _ _ _ hok => (bottleneck_forward_ok_inv hok).2⟩

/-- C8 witness: a 41-frame input raises an `AssertionError`. -/
theorem C8_witness :
    refBottleneck.forward ⟨41, 1, 1, 256, 256⟩ none = .error .assertion :=
  C8_rejects_non40.1 41 1 none (by omega) (by omega)

/-- C6: with fixed weights (abstract ops), a fixed recurrent initial state
and the same image sequence, supplying a label sequence changes only the
arity of the returned list — it adds the warped-labels element — while the
warped-images tensor and the flow tensor are identical to the call without
labels; labels never influence images or flow. -/
theorem C6_labels_change_only_arity {α : Type} (ops : TorchOps α)
    (images lbs : List α) (h0 c0 : α) (mi ml fl : α)
    (hsome : Bottleneck.forwardVal ops images (some lbs) h0 c0 =
      .ok [mi, ml, fl]) :
    Bottleneck.forwardVal ops images none h0 c0 = .ok [mi, fl] := by
  cases hc : Bottleneck.forwardCore ops images h0 c0 with
  | error e =>
    unfold Bottleneck.forwardVal at hsome
    simp [hc] at hsome
  | ok pr =>
    obtain ⟨mi', fl'⟩ := pr
    unfold Bottleneck.forwardVal at hsome ⊢
    simp only [hc] at hsome ⊢
    split at hsome
    · exact absurd hsome (by simp)
    · simp only [Except.ok.injEq, List.cons.injEq, and_true] at hsome
      obtain ⟨e1, _, e3⟩ := hsome
      rw [e1, e3]

/-- C7: the `Bottleneck.forward` orchestration is a pure function of the
weights (the abstract ops), the inputs, and the recurrent initial state:
two calls with identical inputs, identical deterministic weights and an
identical fixed `(h_0, c_0)` state yield identical outputs.  The
`torch.randn` draws for `h_0`/`c_0` are the only source of nondeterminism
in the source and are lifted to explicit arguments here. -/
theorem C7_deterministic {α : Type} (ops : TorchOps α)
    (images images' : List α) (labels labels' : Option (List α))
    (h0 h0' c0 c0' : α)
    (hi : images = images') (hl : labels = labels')
    (hh : h0 = h0') (hcc : c0 = c0') :
    Bottleneck.forwardVal ops images labels h0 c0 =
      Bottleneck.forwardVal ops images' labels' h0' c0' := by
  subst hi; subst hl; subst hh; subst hcc; rfl

/-- A concrete instantiation of the abstract torch operations over `Nat`
"tensors", used to witness the value-level theorems on executable inputs. -/
def natOps : TorchOps Nat :=
  { cat1 := fun a b => a + b
    encode := fun a => .ok (a + 1, [a, a + 1])
    stack := fun l => l.foldl (· + ·) 0
    batchOf := fun _ => 1
    lstm := fun l st => l.map (fun v => v + st.1 + st.2)
    decode := fun a h => .ok (a + h.length)
    warp := fun s f => s + 10 * f }

/-- C6 witness: the theorem applied at a concrete 40-frame `Nat`-tensor
input with the fixed state `(h0, c0) = (2, 3)`: dropping the labels drops
exactly the middle element of the result. -/
theorem C6_witness :
    Bottleneck.forwardVal natOps (List.replicate 40 1) none 2 3 =
      .ok [3939, 390] :=
  C6_labels_change_only_arity natOps (List.replicate 40 1)
    (List.replicate 40 5) 2 3 3939 4095 390 rfl

/-- C7 witness: the theorem applied at a concrete input with equal state
draws. -/
theorem C7_witness :
    Bottleneck.forwardVal natOps (List.replicate 40 1)
        (some (List.replicate 40 5)) 2 3 =
      Bottleneck.forwardVal natOps (List.replicate 40 1)
        (some (List.replicate 40 5)) 2 3 :=
  C7_deterministic natOps (List.replicate 40 1) (List.replicate 40 1)
    (some (List.replicate 40 5)) (some (List.replicate 40 5)) 2 2 3 3
    rfl rfl rfl rfl

/-- C5 counterexample: a valid configuration with `half_res=True` breaks
the shape round trip: on a `(2, 8, 8)` frame pair whose spatial dims are
divisible by the cumulative pooling factor `2^2 = 4`, encode→decode returns
spatial dims `4 × 4` — half the original resolution — not `8 × 8`. -/
theorem C5_cex :
    ((Unet2.init [8, 8] 2 (.listsArg [4, 4] [4, 4]) none (.intArg 2) 1 1
        true).bind fun u =>
      (u.encode ⟨1, 2, 8, 8⟩).bind fun p =>
        (u.decode p.1 (some p.2)).map fun r => r.1) = .ok ⟨1, 4, 4, 4⟩ ∧
    8 % 4 = 0 ∧
    ((⟨1, 4, 4, 4⟩ : Shape).w ≠ 8 ∨ (⟨1, 4, 4, 4⟩ : Shape).h ≠ 8) :=
  ⟨rfl, rfl, by decide⟩

/-- C5 amended: for every configuration that constructs successfully with a
scalar pooling factor `m` and `half_res=False` (both defaults, and what
`Bottleneck` always uses), and every frame-pair input of shape `(2, W, H)`
with `W, H` positive and divisible by the cumulative pooling factor
`m^(number of pooling levels)`, encode followed by decode with that
encode's history stack succeeds and produces an output of shape
`(final_nf, W, H)` — the full original spatial resolution with the
configured final channel count (`2` in the reference configuration). -/
theorem C5_shape_roundtrip {inshape : List Nat} {nbf : NbFeatures}
    {nbl : Option Nat} {m fm ncpl : Nat} {u : Unet2} (n W H : Nat)
    (hinit : Unet2.init inshape 2 nbf nbl (.intArg m) fm ncpl false = .ok u)
    (hdw : m ^ u.encoder.length ∣ W) (hdh : m ^ u.encoder.length ∣ H)
    (hW : 0 < W) (hH : 0 < H) :
    ∃ y hist hist',
      u.encode ⟨n, 2, W, H⟩ = .ok (y, hist) ∧
      u.decode y (some hist) = .ok (⟨n, u.final_nf, W, H⟩, hist') := by
  obtain ⟨hhr, hpool, hups, henclen, hdeclen, ps, cdec, hle, hps, hde, hrem⟩ :=
    unet2_init_spec hinit
  by_cases hm : 1 ≤ m
  · -- scalar factor at least one: the generic run lemmas apply
    have hpm : 0 < m ^ u.encoder.length := pow_pos (by omega) _
    obtain ⟨a, ha⟩ := hdw
    obtain ⟨b, hbb⟩ := hdh
    have ha1 : 1 ≤ a := by
      rcases Nat.eq_zero_or_pos a with h0 | h1
      · rw [h0, mul_zero] at ha; omega
      · exact h1
    have hb1 : 1 ≤ b := by
      rcases Nat.eq_zero_or_pos b with h0 | h1
      · rw [h0, mul_zero] at hbb; omega
      · exact h1
    have haW : W / m ^ u.encoder.length = a := by
      rw [ha, Nat.mul_div_cancel_left _ hpm]
    have hbH : H / m ^ u.encoder.length = b := by
      rw [hbb, Nat.mul_div_cancel_left _ hpm]
    have hee : encEntries ps n W H m = (decSkips ps.reverse n a b m).reverse := by
      have hWa : W = a * m ^ ps.length := by rw [hps, ha]; ring
      have hHb : H = b * m ^ ps.length := by rw [hps, hbb]; ring
      rw [hWa, hHb]
      exact encEntries_eq_decSkips ps n a b m hm
    have hencL := encodeLevels_run m u.nb_levels u.encoder ps 0
      ⟨n, 2, W, H⟩ [⟨n, 2, W, H⟩] hle (by omega) hm
      (by rw [ha]; exact Nat.le_mul_of_pos_right _ (by omega))
      (by rw [hbb]; exact Nat.le_mul_of_pos_right _ (by omega))
    have hdecEq : u.decoder.length = u.encoder.length := by omega
    have hWdl : a * m ^ u.decoder.length = W := by
      rw [hdecEq, ha]; ring
    have hHdl : b * m ^ u.decoder.length = H := by
      rw [hdecEq, hbb]; ring
    have hdecL := decodeLevels_run m u.nb_levels u.nb_levels u.decoder
      ps.reverse cdec 0 n (ps.getLastD 2) a b [⟨n, 2, W, H⟩] hde
      (by omega) hm ha1 hb1
    rw [hWdl, hHdl] at hdecL
    have happ := applyConvs_ok_of_chainEnd n W H hrem (by omega) (by omega)
    refine ⟨⟨n, ps.getLastD 2, a, b⟩,
      [⟨n, 2, W, H⟩] ++ (decSkips ps.reverse n a b m).reverse,
      [⟨n, 2, W, H⟩], ?_, ?_⟩
    · unfold Unet2.encode
      rw [hpool, hencL, hee, haW, hbH]
    · unfold Unet2.decode
      rw [hups, hhr]
      simp only [hdecL, happ]
  · -- m = 0: divisibility with a positive W forces zero levels
    have hm0 : m = 0 := by omega
    have hL0 : u.encoder.length = 0 := by
      by_contra hne
      have hz : m ^ u.encoder.length = 0 := by
        rw [hm0]; exact Nat.zero_pow (by omega)
      rw [hz] at hdw
      have : W = 0 := Nat.eq_zero_of_zero_dvd hdw
      omega
    have hencnil : u.encoder = [] := List.length_eq_zero.mp hL0
    have hdecnil : u.decoder = [] := List.length_eq_zero.mp (by omega)
    have hps0 : ps = [] := List.length_eq_zero.mp (by omega)
    subst hps0
    have hcdec : cdec = 2 := by
      rw [hdecnil] at hde
      simpa [decEnd] using hde.symm
    subst hcdec
    have happ := applyConvs_ok_of_chainEnd n W H hrem (by omega) (by omega)
    refine ⟨⟨n, 2, W, H⟩, [⟨n, 2, W, H⟩], [⟨n, 2, W, H⟩], ?_, ?_⟩
    · unfold Unet2.encode
      rw [hencnil]
      rfl
    · unfold Unet2.decode
      rw [hhr, hdecnil]
      simp only [decodeLevels, happ]

/-- C5 witness: the amended theorem applied to the reference configuration
on a `(2, 256, 256)` frame pair (`256` is divisible by `2^5 = 32`). -/
theorem C5_witness :
    ∃ y hist hist',
      refUnet.encode ⟨1, 2, 256, 256⟩ = .ok (y, hist) ∧
      refUnet.decode y (some hist) =
        .ok (⟨1, refUnet.final_nf, 256, 256⟩, hist') :=
  C5_shape_roundtrip 1 256 256 refUnet_init (by norm_num [refUnet])
    (by norm_num [refUnet]) (by omega) (by omega)

end RnnRegistration

